import Mathlib

/-!
Verification of the streaming CPT extractor (fast_bcbs_extract.go and its
R2-upload variant).  The definitions below are a shallow embedding of the
Go source: string helpers mirror the `strings` package operations used,
`anyToString` / `normalizeNPIs` / `nilIfNil` mirror the helper functions,
`keepItem` / `pgRows` / `rateRows` / `rateUnres` / `processItem` mirror the
main extraction loop, the sink definitions mirror `getWriter` and the
per-code CSV writer map, and the token definitions mirror `skipValue` and
the root-object scan over `encoding/json` decoder tokens.
-/

/-! ## String helpers (mirroring the `strings` package operations used) -/

/-- Whitespace predicate used by `strings.TrimSpace` (`unicode.IsSpace`) on
the Latin-1 range: space, tab, newline, vertical tab, form feed, carriage
return, NEL (U+0085) and NBSP (U+00A0).  Unicode category-Z code points
above Latin-1 also count as space in Go; they do not occur in the fields
this program trims and are omitted. -/
def goIsSpace (c : Char) : Bool :=
  c = ' ' || c = '\t' || c = '\n' || c = Char.ofNat 11 || c = Char.ofNat 12 ||
  c = '\r' || c = Char.ofNat 133 || c = Char.ofNat 160

/-- `strings.TrimSpace`: drop leading and trailing whitespace. -/
def goTrimSpace (s : String) : String :=
  String.mk (((s.data.dropWhile goIsSpace).reverse.dropWhile goIsSpace).reverse)

/-- `strings.ToUpper` restricted to ASCII letters (the only case mapping
exercised here; Go also maps non-ASCII letters). -/
def goToUpper (s : String) : String :=
  String.mk (s.data.map Char.toUpper)

/-- Character-list version of `strings.HasPrefix`. -/
def hasPrefixCharList : List Char → List Char → Bool
  | _, [] => true
  | [], _ :: _ => false
  | c :: cs, p :: ps => c = p && hasPrefixCharList cs ps

/-- `strings.HasPrefix s pre`. -/
def goHasPrefixStr (s pre : String) : Bool :=
  hasPrefixCharList s.data pre.data

/-! ## Type-erased JSON scalars

The decoder is configured with `UseNumber`, so an `any` field decoded from
JSON holds `nil`, `string`, `json.Number` (the literal token text),
`bool`, or `[]any`.  (`float64` is produced only without `UseNumber`, and
JSON objects do not occur in the type-erased positions of this schema:
`npi`, `negotiated_rate` and `negotiation_arrangement` are scalars or
arrays of scalars.) -/

inductive JAny where
  | jnull
  | jstr (s : String)
  | jnum (s : String)
  | jbool (b : Bool)
  | jarr (xs : List JAny)

/-- Lower-case hex digit, as produced by `encoding/json` escaping. -/
def hexDigit (n : Nat) : Char :=
  if n < 10 then Char.ofNat (48 + n) else Char.ofNat (87 + n)

/-- One character of `encoding/json` string escaping (the default encoder
escapes quotes, backslash, control characters, the HTML characters
`<` `>` `&`, and U+2028/U+2029). -/
def escChar (c : Char) : List Char :=
  if c = '"' then ['\\', '"']
  else if c = '\\' then ['\\', '\\']
  else if c = '\n' then ['\\', 'n']
  else if c = '\r' then ['\\', 'r']
  else if c = '\t' then ['\\', 't']
  else if c.toNat < 32 || c = '<' || c = '>' || c = '&' then
    ['\\', 'u', '0', '0', hexDigit (c.toNat / 16), hexDigit (c.toNat % 16)]
  else if c.toNat = 8232 || c.toNat = 8233 then
    ['\\', 'u', '2', '0', '2', hexDigit (c.toNat % 16)]
  else [c]

/-- `encoding/json` quoting of a string value. -/
def quoteStr (s : String) : String :=
  String.mk ('"' :: (s.data.flatMap escChar) ++ ['"'])

mutual

/-- `json.Marshal` on the decoded value (the `default` branch of
`anyToString`). -/
def jsonMarshal : JAny → String
  | .jnull => "null"
  | .jstr s => quoteStr s
  | .jnum s => s
  | .jbool b => if b then "true" else "false"
  | .jarr xs => "[" ++ marshalElems xs ++ "]"

/-- Comma-separated marshalling of array elements. -/
def marshalElems : List JAny → String
  | [] => ""
  | [x] => jsonMarshal x
  | x :: y :: tl => jsonMarshal x ++ "," ++ marshalElems (y :: tl)

end

/-- `anyToString` from the source: `nil` becomes the empty string, a string
is returned as is, a `json.Number` yields its literal text (`t.String()`),
a bool yields `"true"` / `"false"`, and anything else is marshalled.  (The
`float64` branch of the source formats with the fixed-point verb `%.10f`;
under `UseNumber` the decoder never produces a `float64`, so that branch
is unreachable and has no constructor here.) -/
def anyToString : JAny → String
  | .jnull => ""
  | .jstr s => s
  | .jnum s => s
  | .jbool b => if b then "true" else "false"
  | v => jsonMarshal v

/-- `nilIfNil` from the source: a nil slice becomes an empty slice. -/
def nilIfNil : Option (List String) → List String
  | none => []
  | some l => l

/-- `normalizeNPIs` from the source: `nil` yields no NPIs, an array is
coerced element by element with `anyToString`, and any other single value
is coerced to a one-element list.  (The source also has a `case []string`
branch, unreachable when the field was decoded into `any`.) -/
def normalizeNPIs : JAny → List String
  | .jnull => []
  | .jarr a => a.map anyToString
  | v => [anyToString v]

/-! ## Numeric literal text -/

/-- True when the text contains an exponent marker `e` or `E`
(for JSON number literals this is exactly scientific notation). -/
def hasExpMark (s : String) : Bool :=
  s.data.any fun c => c = 'e' || c = 'E'

/-- ASCII digit test. -/
def isDigitCh (c : Char) : Bool :=
  48 ≤ c.toNat && c.toNat ≤ 57

/-- Consume one or more digits. -/
def eatDigits1 : List Char → Option (List Char)
  | c :: rest => if isDigitCh c then some (rest.dropWhile isDigitCh) else none
  | [] => none

/-- Integer part of a JSON number literal: `0`, or a nonzero digit
followed by digits. -/
def eatIntPart : List Char → Option (List Char)
  | '0' :: rest => some rest
  | c :: rest => if isDigitCh c then some (rest.dropWhile isDigitCh) else none
  | [] => none

/-- Optional fraction part `.digits`. -/
def eatFrac : List Char → Option (List Char)
  | '.' :: rest => eatDigits1 rest
  | l => some l

/-- Optional exponent part `[eE][+-]?digits`. -/
def eatExp : List Char → Option (List Char)
  | 'e' :: '+' :: rest => eatDigits1 rest
  | 'e' :: '-' :: rest => eatDigits1 rest
  | 'e' :: rest => eatDigits1 rest
  | 'E' :: '+' :: rest => eatDigits1 rest
  | 'E' :: '-' :: rest => eatDigits1 rest
  | 'E' :: rest => eatDigits1 rest
  | l => some l

/-- Whether `s` is a valid JSON number literal (the texts a `json.Number`
produced by the decoder can hold). -/
def isNumberLit (s : String) : Bool :=
  let l := match s.data with
    | '-' :: rest => rest
    | l => l
  match eatIntPart l with
  | none => false
  | some l1 =>
    match eatFrac l1 with
    | none => false
    | some l2 =>
      match eatExp l2 with
      | none => false
      | some l3 => l3.isEmpty

/-! ## Decoded record structures (the Go structs) -/

/-- The struct behind the `tin` pointer: `type` and `value`. -/
structure TinInfo where
  ttype : String
  tvalue : String

/-- `Price` (one element of `negotiated_prices`). -/
structure Price where
  negotiatedRate : JAny
  expirationDate : String
  serviceCode : Option (List String)
  billingCodeModifier : Option (List String)
  negotiatedType : String
  billingClass : String

/-- `ProviderGroup`: optional TIN (the pointer is nil when the field is
null or absent) and the type-erased NPI field. -/
structure ProviderGroup where
  tin : Option TinInfo
  npi : JAny

/-- `Rate` (one element of `negotiated_rates`).  Provider references are
raw messages whose content is never inspected, only counted. -/
structure Rate where
  providerGroups : List ProviderGroup
  providerReferences : List String
  negotiatedPrices : List Price

/-- `Item` (one element of the `in_network` array). -/
structure Item where
  billingCodeType : String
  billingCode : String
  negotiationArrangement : JAny
  negotiatedRates : List Rate

/-! ## Record filter and flattener (the main loop, lines 220-294 of
fast_bcbs_extract.go) -/

/-- The early filter on one decoded item (the three `continue` checks):
billing-code-type trimmed and upper-cased must start with `"CPT"`, and the
trimmed billing code must be non-empty and in the allow-set. -/
def keepItem (allowed : List String) (it : Item) : Bool :=
  let bct := goToUpper (goTrimSpace it.billingCodeType)
  if !(goHasPrefixStr bct "CPT") then false
  else
    let bc := goTrimSpace it.billingCode
    if bc = "" then false
    else decide (bc ∈ allowed)

/-- The 12-cell output row written for one (NPI, price) pair inside one
provider group (the `wp.w.Write` call). -/
def priceRow (npi tinType tinVal bc bct na : String) (p : Price) : List String :=
  [npi, tinType, tinVal,
   anyToString p.negotiatedRate, p.expirationDate,
   String.intercalate "|" (nilIfNil p.serviceCode),
   bc, bct, na,
   p.negotiatedType, p.billingClass,
   String.intercalate "|" (nilIfNil p.billingCodeModifier)]

/-- Rows produced by one provider group: the nil TIN pointer yields empty
TIN cells; a group whose normalized NPI sequence is empty is skipped; the
remaining groups emit one row per price per NPI (prices outer, NPIs
inner, as in the source loops). -/
def pgRows (bc bct na : String) (prices : List Price) (pg : ProviderGroup) :
    List (List String) :=
  let tinType := match pg.tin with | some t => t.ttype | none => ""
  let tinVal := match pg.tin with | some t => t.tvalue | none => ""
  let npis := normalizeNPIs pg.npi
  if npis.length = 0 then []
  else prices.flatMap fun p => npis.map fun npi => priceRow npi tinType tinVal bc bct na p

/-- Rows produced by one rate group: nothing unless it has at least one
provider group and at least one price (the `continue` guard), otherwise
the concatenation over its provider groups. -/
def rateRows (bc bct na : String) (rate : Rate) : List (List String) :=
  if rate.providerGroups.length = 0 || rate.negotiatedPrices.length = 0 then []
  else rate.providerGroups.flatMap (pgRows bc bct na rate.negotiatedPrices)

/-- Unresolved-reference records produced by one rate group: one
`(billing_code, "ref_id")` record per provider reference, written before
and independently of the provider-group / price guard. -/
def rateUnres (bc : String) (rate : Rate) : List (List String) :=
  rate.providerReferences.map fun _ => [bc, "ref_id"]

/-- What processing one decoded array element produces.  The program
writes rows and unresolved records to different files, so the observable
per-file sequences are exactly these two lists (each in source order). -/
structure ItemResult where
  rows : List (String × List String)
  unres : List (List String)
  kept : Bool

/-- Processing of one array element: a rejected item contributes nothing;
a kept item contributes, per rate group, its unresolved-reference records
and its output rows, all under the trimmed code, the trimmed upper-cased
code type and the coerced negotiation arrangement. -/
def processItem (allowed : List String) (it : Item) : ItemResult :=
  if keepItem allowed it then
    let bc := goTrimSpace it.billingCode
    let bct := goToUpper (goTrimSpace it.billingCodeType)
    let na := anyToString it.negotiationArrangement
    { rows := it.negotiatedRates.flatMap fun r =>
        (rateRows bc bct na r).map fun row => (bc, row)
      unres := it.negotiatedRates.flatMap fun r => rateUnres bc r
      kept := true }
  else { rows := [], unres := [], kept := false }

/-- The cumulative counters of the main loop. -/
structure Counters where
  seen : Nat
  kept : Nat
  rows : Nat
  refRates : Nat
  refIds : Nat
deriving DecidableEq, Repr

/-- Counter increments attributed to one array element: `seenItems` is
always incremented; a rejected element increments nothing else; a kept
element increments `keptItems` once, `outRows` per row, and the two
reference counters per rate group with references and per reference. -/
def itemCounters (allowed : List String) (it : Item) : Counters :=
  if keepItem allowed it then
    { seen := 1
      kept := 1
      rows := (processItem allowed it).rows.length
      refRates := (it.negotiatedRates.filter fun r =>
        r.providerReferences.length != 0).length
      refIds := (processItem allowed it).unres.length }
  else { seen := 1, kept := 0, rows := 0, refRates := 0, refIds := 0 }

/-! ## Fan-out row sink (`getWriter` and the per-code writer map,
lines 107-136) -/

/-- The fixed 12-column header written when a per-code file is created. -/
def csvHeader : List String :=
  ["npi", "tin_type", "tin_value",
   "negotiated_rate", "expiration_date", "service_code",
   "billing_code", "billing_code_type", "negotiation_arrangement",
   "negotiated_type", "billing_class", "billing_code_modifier"]

/-- The writer map, as the lines so far written to each created file. -/
def Writers := String → Option (List (List String))

/-- The empty writer map. -/
def noWriters : Writers := fun _ => none

/-- `getWriter`: a cached handle is returned as is; otherwise the file is
created, the header is written, and the handle is cached. -/
def getWriter (m : Writers) (code : String) : Writers :=
  match m code with
  | some _ => m
  | none => fun c => if c = code then some [csvHeader] else m c

/-- A row write for a code: fetch (or create) the writer, then append the
row to that file. -/
def writeRow (m : Writers) (code : String) (row : List String) : Writers :=
  let m2 := getWriter m code
  fun c => if c = code then (m2 code).map (fun f => f ++ [row]) else m2 c

/-- One sink operation: a bare `getWriter` call or a row write. -/
inductive SinkOp where
  | openW (code : String)
  | write (code : String) (row : List String)

/-- Apply one sink operation. -/
def sinkStep (m : Writers) : SinkOp → Writers
  | .openW c => getWriter m c
  | .write c r => writeRow m c r

/-- Run a sequence of sink operations from a writer map. -/
def runSinkFrom (m : Writers) (ops : List SinkOp) : Writers :=
  ops.foldl sinkStep m

/-- Run a sequence of sink operations from the empty map. -/
def runSink (ops : List SinkOp) : Writers :=
  runSinkFrom noWriters ops

/-- The rows written for a given code by a sequence of operations. -/
def rowsFor (code : String) (ops : List SinkOp) : List (List String) :=
  ops.filterMap fun op =>
    match op with
    | .write c r => if c = code then some r else none
    | .openW _ => none

/-- Whether a sequence of operations ever names a code. -/
def touchesCode (code : String) (ops : List SinkOp) : Bool :=
  ops.any fun op =>
    match op with
    | .openW c => c = code
    | .write c _ => c = code

/-! ## Termination paths (the `defer` at lines 102-105 and the flush loop
at lines 300-305) -/

/-- The outcome of decoding one array element: a structured item, or a
decode error (which the source turns into a panic). -/
inductive DecodeResult where
  | ok (it : Item)
  | failure

/-- Insert a code into the opened-writer list if it is new. -/
def insertNewCode (l : List String) (c : String) : List String :=
  if l.contains c then l else l ++ [c]

/-- Walk the decode results, accumulating the codes for which `getWriter`
has created a file (exactly the codes of emitted rows); a decode failure
stops the loop with a panic. -/
def openedCodes (allowed : List String) :
    List DecodeResult → List String → List String × Bool
  | [], acc => (acc, false)
  | .failure :: _, acc => (acc, true)
  | .ok it :: rest, acc =>
      openedCodes allowed rest
        (((processItem allowed it).rows.map Prod.fst).foldl insertNewCode acc)

/-- What holds of the output handles when the process terminates. -/
structure RunEnd where
  opened : List String
  flushedClosed : List String
  unresFlushedClosed : Bool
  panicked : Bool

/-- Termination behaviour of a run.  On natural completion the flush loop
(lines 300-303) flushes and closes every writer in the map, then the
unresolved writer (lines 304-305, and again via the `defer`).  On a panic
only the deferred function at lines 102-105 runs: it flushes and closes
the unresolved writer, while the per-code writers in the map are neither
flushed nor closed. -/
def runProgram (allowed : List String) (input : List DecodeResult) : RunEnd :=
  match openedCodes allowed input [] with
  | (op, true) =>
    { opened := op, flushedClosed := [], unresFlushedClosed := true, panicked := true }
  | (op, false) =>
    { opened := op, flushedClosed := op, unresFlushedClosed := true, panicked := false }

/-! ## Decoder tokens and the token skipper (`skipValue`, lines 318-336 of
the R2 variant; `dec.Skip()` in fast_bcbs_extract.go has the same
contract) -/

/-- One token of `encoding/json`: the four delimiters, a string token
(string values and object keys), or any other scalar token (number, bool,
null). -/
inductive Tok where
  | objOpen
  | objClose
  | arrOpen
  | arrClose
  | tstr (s : String)
  | tscalar
deriving DecidableEq, Repr

/-- Whether a token is a `json.Delim`. -/
def Tok.isDelim : Tok → Bool
  | .objOpen | .objClose | .arrOpen | .arrClose => true
  | _ => false

/-- The skip loop of `skipValue`: while the depth is positive, read a
token; an opening delimiter increments the depth, a closing one
decrements it, anything else leaves it unchanged.  Returns the unread
remainder of the stream, or `none` when a read fails (a panic in the
source). -/
def skipLoop : Nat → List Tok → Option (List Tok)
  | 0, l => some l
  | _ + 1, [] => none
  | d + 1, t :: rest =>
    match t with
    | .objOpen | .arrOpen => skipLoop (d + 2) rest
    | .objClose | .arrClose => skipLoop d rest
    | _ => skipLoop (d + 1) rest

/-- `skipValue`: read one token; a non-delimiter is the whole value, a
delimiter starts the depth loop at 1. -/
def skipValue : List Tok → Option (List Tok)
  | [] => none
  | t :: rest => if t.isDelim then skipLoop 1 rest else some rest

/-- The depth after reading one token at depth `d + 1`: an opening
delimiter increments, a closing one decrements, anything else leaves it. -/
def skipDepthStep (d : Nat) : Tok → Nat
  | .objOpen | .arrOpen => d + 2
  | .objClose | .arrClose => d
  | _ => d + 1

/-- Instrumented skip loop: also records the depth value after each token
read by the loop. -/
def skipLoopT : Nat → List Tok → Option (List Nat × List Tok)
  | 0, l => some ([], l)
  | _ + 1, [] => none
  | d + 1, t :: rest =>
    match skipLoopT (skipDepthStep d t) rest with
    | some (ds, r) => some (skipDepthStep d t :: ds, r)
    | none => none

/-- Instrumented `skipValue`: the depth trace of the loop together with
the remainder (a primitive never enters the loop, so its trace is empty). -/
def skipValueT : List Tok → Option (List Nat × List Tok)
  | [] => none
  | t :: rest => if t.isDelim then skipLoopT 1 rest else some ([], rest)

/-! ## Syntactically valid JSON values and their token streams -/

mutual

/-- A syntactically valid JSON value, as the decoder tokenizes it. -/
inductive JVal where
  | scalar : JVal
  | vstr : String → JVal
  | arr : JList → JVal
  | obj : JFields → JVal

/-- A list of JSON values (array elements). -/
inductive JList where
  | nil : JList
  | cons : JVal → JList → JList

/-- A list of JSON object fields (key and value). -/
inductive JFields where
  | fnil : JFields
  | fcons : String → JVal → JFields → JFields

end

mutual

/-- The token stream of one JSON value. -/
def toks : JVal → List Tok
  | .scalar => [.tscalar]
  | .vstr s => [.tstr s]
  | .arr l => .arrOpen :: toksL l ++ [.arrClose]
  | .obj fs => .objOpen :: toksF fs ++ [.objClose]

/-- The token stream of array elements. -/
def toksL : JList → List Tok
  | .nil => []
  | .cons v tl => toks v ++ toksL tl

/-- The token stream of object fields: each field is its key token
followed by its value tokens. -/
def toksF : JFields → List Tok
  | .fnil => []
  | .fcons k v tl => .tstr k :: toks v ++ toksF tl

end

/-- Number of fields. -/
def numF : JFields → Nat
  | .fnil => 0
  | .fcons _ _ tl => numF tl + 1

/-- Number of elements. -/
def lenL : JList → Nat
  | .nil => 0
  | .cons _ tl => lenL tl + 1

/-- Whether a field list contains a given key. -/
def hasKeyF : JFields → String → Bool
  | .fnil, _ => false
  | .fcons k _ tl, s => if k = s then true else hasKeyF tl s

/-- Concatenation of field lists. -/
def appendF : JFields → JFields → JFields
  | .fnil, g => g
  | .fcons k v tl, g => .fcons k v (appendF tl g)

/-! ## Root navigator (lines 179-213 of fast_bcbs_extract.go) -/

/-- The key scan inside the root object: while `dec.More()` holds (the
next token is not the closing brace), read a key token (a panic if it is
not a string); on the key `"in_network"` the next token must open an
array, and the scan returns the stream positioned inside it; any other
key has its value skipped.  Reaching the closing brace means no
`"in_network"` field was found (a panic).  The fuel argument bounds the
number of keys scanned and is a model artifact; the source loop is
bounded by the stream itself. -/
def scanKeys : Nat → List Tok → Option (List Tok)
  | 0, _ => none
  | fuel + 1, l =>
    if l.head? = some Tok.objClose then none
    else
      match l with
      | Tok.tstr k :: rest =>
        if k = "in_network" then
          match rest with
          | Tok.arrOpen :: r2 => some r2
          | _ => none
        else
          match skipValue rest with
          | some r2 => scanKeys fuel r2
          | none => none
      | _ => none

/-- The root navigation: the root must open an object, then the keys are
scanned. -/
def rootScan (fuel : Nat) : List Tok → Option (List Tok)
  | Tok.objOpen :: rest => scanKeys fuel rest
  | _ => none

/-- The item loop at token level: while `dec.More()` holds (the next
token is not the closing bracket), `dec.Decode` consumes exactly one
array element, which at token level is `skipValue`; the loop stops with
the closing bracket still unread.  The fuel bounds the number of
elements and is a model artifact. -/
def consumeElems : Nat → List Tok → Option (List Tok)
  | 0, l => if l.head? = some Tok.arrClose then some l else none
  | fuel + 1, l =>
    if l.head? = some Tok.arrClose then some l
    else
      match skipValue l with
      | some r => consumeElems fuel r
      | none => none

/-- The whole token-level pipeline of the run: navigate to the target
array, consume its elements, then read exactly one more token (line 296
reads the closing bracket, unchecked).  Nothing after that token is ever
read. -/
def rootPhase (fuel1 fuel2 : Nat) (l : List Tok) : Option (List Tok) :=
  match rootScan fuel1 l with
  | some inArr =>
    match consumeElems fuel2 inArr with
    | some (_ :: r) => some r
    | _ => none
  | none => none

/-! ## Lemmas about the token skipper -/

/-- The instrumented skip loop is the skip loop plus its depth trace. -/
theorem skipLoop_eq_trace (l : List Tok) :
    ∀ d : Nat, skipLoop d l = (skipLoopT d l).map Prod.snd := by
  induction l with
  | nil => intro d; cases d <;> rfl
  | cons t rest ih =>
    intro d
    cases d with
    | zero => rfl
    | succ d =>
      cases t <;>
        (simp only [skipLoop, skipLoopT, skipDepthStep]
         rw [ih]
         split <;> simp_all)

/-- The instrumented skipper is the skipper plus its depth trace. -/
theorem skipValue_eq_trace (l : List Tok) :
    skipValue l = (skipValueT l).map Prod.snd := by
  cases l with
  | nil => rfl
  | cons t rest =>
    simp only [skipValue, skipValueT]
    by_cases h : t.isDelim
    · simp [h, skipLoop_eq_trace]
    · simp [h]

/-- Unfold one loop step on a known remainder. -/
theorem skipLoopT_cons (d : Nat) (t : Tok) {rest : List Tok} {es : List Nat}
    {r : List Tok} (h : skipLoopT (skipDepthStep d t) rest = some (es, r)) :
    skipLoopT (d + 1) (t :: rest) = some (skipDepthStep d t :: es, r) := by
  simp only [skipLoopT, h]

mutual

/-- Inside the skip loop at positive depth, the tokens of one complete
value are consumed without the depth ever dropping below the entry depth,
and the loop continues exactly where it would have from the rest of the
stream. -/
theorem skipLoopT_val (v : JVal) (d : Nat) (rest : List Tok) (es : List Nat)
    (r : List Tok) (h : skipLoopT (d + 1) rest = some (es, r)) :
    ∃ ds : List Nat, ds.length = (toks v).length ∧ (∀ x ∈ ds, d + 1 ≤ x) ∧
      skipLoopT (d + 1) (toks v ++ rest) = some (ds ++ es, r) := by
  cases v with
  | scalar =>
    refine ⟨[d + 1], rfl, ?_, ?_⟩
    · intro x hx; simp at hx; omega
    · simpa [toks, skipDepthStep] using skipLoopT_cons d Tok.tscalar h
  | vstr s =>
    refine ⟨[d + 1], rfl, ?_, ?_⟩
    · intro x hx; simp at hx; omega
    · simpa [toks, skipDepthStep] using skipLoopT_cons d (Tok.tstr s) h
  | arr l =>
    have hbase : skipLoopT (d + 1 + 1) (Tok.arrClose :: rest) =
        some ((d + 1) :: es, r) := skipLoopT_cons (d + 1) Tok.arrClose h
    obtain ⟨ds1, hlen1, hge1, heq1⟩ :=
      skipLoopT_list l (d + 1) (Tok.arrClose :: rest) ((d + 1) :: es) r hbase
    have htop : skipLoopT (d + 1) (Tok.arrOpen :: (toksL l ++ Tok.arrClose :: rest)) =
        some ((d + 2) :: (ds1 ++ (d + 1) :: es), r) :=
      skipLoopT_cons d Tok.arrOpen heq1
    refine ⟨(d + 2) :: (ds1 ++ [d + 1]), ?_, ?_, ?_⟩
    · simp [toks, hlen1]
    · intro x hx
      simp at hx
      rcases hx with h1 | h2 | h3
      · omega
      · have := hge1 x h2; omega
      · omega
    · simpa [toks, List.append_assoc] using htop
  | obj fs =>
    have hbase : skipLoopT (d + 1 + 1) (Tok.objClose :: rest) =
        some ((d + 1) :: es, r) := skipLoopT_cons (d + 1) Tok.objClose h
    obtain ⟨ds1, hlen1, hge1, heq1⟩ :=
      skipLoopT_fields fs (d + 1) (Tok.objClose :: rest) ((d + 1) :: es) r hbase
    have htop : skipLoopT (d + 1) (Tok.objOpen :: (toksF fs ++ Tok.objClose :: rest)) =
        some ((d + 2) :: (ds1 ++ (d + 1) :: es), r) :=
      skipLoopT_cons d Tok.objOpen heq1
    refine ⟨(d + 2) :: (ds1 ++ [d + 1]), ?_, ?_, ?_⟩
    · simp [toks, hlen1]
    · intro x hx
      simp at hx
      rcases hx with h1 | h2 | h3
      · omega
      · have := hge1 x h2; omega
      · omega
    · simpa [toks, List.append_assoc] using htop

/-- As `skipLoopT_val`, for the concatenated tokens of a list of values. -/
theorem skipLoopT_list (l : JList) (d : Nat) (rest : List Tok) (es : List Nat)
    (r : List Tok) (h : skipLoopT (d + 1) rest = some (es, r)) :
    ∃ ds : List Nat, ds.length = (toksL l).length ∧ (∀ x ∈ ds, d + 1 ≤ x) ∧
      skipLoopT (d + 1) (toksL l ++ rest) = some (ds ++ es, r) := by
  cases l with
  | nil => exact ⟨[], rfl, by simp, by simpa using h⟩
  | cons v tl =>
    obtain ⟨ds2, hlen2, hge2, heq2⟩ := skipLoopT_list tl d rest es r h
    obtain ⟨ds1, hlen1, hge1, heq1⟩ :=
      skipLoopT_val v d (toksL tl ++ rest) (ds2 ++ es) r heq2
    refine ⟨ds1 ++ ds2, ?_, ?_, ?_⟩
    · simp [toksL, hlen1, hlen2]
    · intro x hx
      simp at hx
      rcases hx with h1 | h2
      · exact hge1 x h1
      · exact hge2 x h2
    · simpa [toksL, List.append_assoc] using heq1

/-- As `skipLoopT_val`, for the concatenated tokens of object fields. -/
theorem skipLoopT_fields (fs : JFields) (d : Nat) (rest : List Tok) (es : List Nat)
    (r : List Tok) (h : skipLoopT (d + 1) rest = some (es, r)) :
    ∃ ds : List Nat, ds.length = (toksF fs).length ∧ (∀ x ∈ ds, d + 1 ≤ x) ∧
      skipLoopT (d + 1) (toksF fs ++ rest) = some (ds ++ es, r) := by
  cases fs with
  | fnil => exact ⟨[], rfl, by simp, by simpa using h⟩
  | fcons k v tl =>
    obtain ⟨ds2, hlen2, hge2, heq2⟩ := skipLoopT_fields tl d rest es r h
    obtain ⟨ds1, hlen1, hge1, heq1⟩ :=
      skipLoopT_val v d (toksF tl ++ rest) (ds2 ++ es) r heq2
    have htop : skipLoopT (d + 1) (Tok.tstr k :: (toks v ++ (toksF tl ++ rest))) =
        some ((d + 1) :: (ds1 ++ (ds2 ++ es)), r) :=
      skipLoopT_cons d (Tok.tstr k) heq1
    refine ⟨(d + 1) :: (ds1 ++ ds2), ?_, ?_, ?_⟩
    · simp [toksF, hlen1, hlen2]
    · intro x hx
      simp at hx
      rcases hx with h1 | h2 | h3
      · omega
      · exact hge1 x h2
      · exact hge2 x h3
    · simpa [toksF, List.append_assoc] using htop

end

/-- The instrumented skipper on one complete value: the remainder is the
rest of the stream, the trace covers every token after the first, its
entries before the last are positive, and its last entry (present exactly
when the value is delimited) is the depth zero that ends the loop. -/
theorem skipValueT_val (v : JVal) (rest : List Tok) :
    ∃ ds : List Nat, skipValueT (toks v ++ rest) = some (ds, rest) ∧
      ds.length + 1 = (toks v).length ∧
      (∀ x ∈ ds.dropLast, 0 < x) ∧ (ds ≠ [] → ds.getLast? = some 0) := by
  cases v with
  | scalar =>
    exact ⟨[], by simp [toks, skipValueT, Tok.isDelim], rfl, by simp, by simp⟩
  | vstr s =>
    exact ⟨[], by simp [toks, skipValueT, Tok.isDelim], rfl, by simp, by simp⟩
  | arr l =>
    have hbase : skipLoopT (0 + 1) (Tok.arrClose :: rest) = some ([0], rest) :=
      skipLoopT_cons 0 Tok.arrClose (by simp [skipDepthStep, skipLoopT])
    obtain ⟨ds1, hlen1, hge1, heq1⟩ :=
      skipLoopT_list l 0 (Tok.arrClose :: rest) [0] rest hbase
    refine ⟨ds1 ++ [0], ?_, ?_, ?_, ?_⟩
    · simpa [toks, skipValueT, Tok.isDelim, List.append_assoc] using heq1
    · simp [toks, hlen1]
    · intro x hx
      rw [List.dropLast_concat] at hx
      have := hge1 x hx; omega
    · intro _; simp
  | obj fs =>
    have hbase : skipLoopT (0 + 1) (Tok.objClose :: rest) = some ([0], rest) :=
      skipLoopT_cons 0 Tok.objClose (by simp [skipDepthStep, skipLoopT])
    obtain ⟨ds1, hlen1, hge1, heq1⟩ :=
      skipLoopT_fields fs 0 (Tok.objClose :: rest) [0] rest hbase
    refine ⟨ds1 ++ [0], ?_, ?_, ?_, ?_⟩
    · simpa [toks, skipValueT, Tok.isDelim, List.append_assoc] using heq1
    · simp [toks, hlen1]
    · intro x hx
      rw [List.dropLast_concat] at hx
      have := hge1 x hx; omega
    · intro _; simp

/-- The skipper consumes exactly one complete value and leaves the rest
of the stream. -/
theorem skipValue_complete (v : JVal) (rest : List Tok) :
    skipValue (toks v ++ rest) = some rest := by
  obtain ⟨ds, heq, -, -, -⟩ := skipValueT_val v rest
  rw [skipValue_eq_trace, heq]
  rfl

/-! ## Lemmas about the root navigator -/

/-- Token streams of concatenated field lists concatenate. -/
theorem toksF_append (a b : JFields) :
    toksF (appendF a b) = toksF a ++ toksF b := by
  cases a with
  | fnil => simp [appendF, toksF]
  | fcons k v tl => simp [appendF, toksF, toksF_append tl b]

/-- A value never begins with a closing delimiter. -/
theorem toks_head_ne_close (v : JVal) (X : List Tok) :
    (toks v ++ X).head? ≠ some Tok.arrClose ∧
    (toks v ++ X).head? ≠ some Tok.objClose := by
  cases v <;> simp [toks]

/-- One scan step over a non-target key whose value is skippable. -/
theorem scanKeys_step_other (fuel : Nat) (k : String) (hk : ¬(k = "in_network"))
    {S r2 : List Tok} (h : skipValue S = some r2) :
    scanKeys (fuel + 1) (Tok.tstr k :: S) = scanKeys fuel r2 := by
  rw [scanKeys.eq_def]
  simp [hk, h]

/-- One scan step over the target key followed by the array opener. -/
theorem scanKeys_step_target (fuel : Nat) (S : List Tok) :
    scanKeys (fuel + 1) (Tok.tstr "in_network" :: Tok.arrOpen :: S) = some S := by
  rw [scanKeys.eq_def]
  simp

/-- The key scan skips every earlier field (none of which is named
`in_network`), recognises the target key, consumes the array opener and
stops just inside the array. -/
theorem scanKeys_pre (pre : JFields) (R : List Tok)
    (hpre : hasKeyF pre "in_network" = false) :
    scanKeys (numF pre + 1)
      (toksF pre ++ Tok.tstr "in_network" :: Tok.arrOpen :: R) = some R := by
  cases pre with
  | fnil => simpa [toksF, numF] using scanKeys_step_target 0 R
  | fcons k v tl =>
    have hk : ¬(k = "in_network") := by
      intro hk; rw [hasKeyF, if_pos hk] at hpre; exact Bool.noConfusion hpre
    have htl : hasKeyF tl "in_network" = false := by
      rwa [hasKeyF, if_neg hk] at hpre
    have hskip := skipValue_complete v
      (toksF tl ++ Tok.tstr "in_network" :: Tok.arrOpen :: R)
    have ih := scanKeys_pre tl R htl
    rw [show numF (JFields.fcons k v tl) + 1 = numF tl + 1 + 1 from by
      simp [numF]]
    simp only [toksF, List.cons_append, List.append_assoc]
    rw [scanKeys_step_other (numF tl + 1) k hk hskip]
    exact ih

/-- The element loop consumes exactly the array elements and stops with
the closing bracket still unread. -/
theorem consumeElems_elems (l : JList) (Z : List Tok) :
    consumeElems (lenL l) (toksL l ++ Tok.arrClose :: Z) =
      some (Tok.arrClose :: Z) := by
  cases l with
  | nil => simp [toksL, lenL, consumeElems]
  | cons v tl =>
    have hcond := (toks_head_ne_close v (toksL tl ++ Tok.arrClose :: Z)).1
    have hskip := skipValue_complete v (toksL tl ++ Tok.arrClose :: Z)
    have ih := consumeElems_elems tl Z
    rw [show lenL (JList.cons v tl) = lenL tl + 1 from by simp [lenL]]
    simp only [toksL, List.append_assoc]
    rw [consumeElems, if_neg hcond, hskip]
    exact ih

/-! ## Counting lemmas for the flattener -/

/-- Sum of a constant over a list. -/
theorem sum_map_const_len {α : Type} (l : List α) (n : Nat) :
    (l.map fun _ => n).sum = l.length * n := by
  induction l with
  | nil => simp
  | cons a tl ih => simp [ih, Nat.succ_mul, Nat.add_comm]

/-- Sums commute with a common left factor. -/
theorem sum_map_mul_left_len {α : Type} (c : Nat) (f : α → Nat) (l : List α) :
    (l.map fun a => c * f a).sum = c * (l.map f).sum := by
  induction l with
  | nil => simp
  | cons a tl ih => simp [ih, Nat.mul_add]

/-- Row count of one provider group: prices times normalized NPIs (zero
NPIs give zero rows). -/
theorem pgRows_length (bc bct na : String) (prices : List Price)
    (pg : ProviderGroup) :
    (pgRows bc bct na prices pg).length =
      prices.length * (normalizeNPIs pg.npi).length := by
  by_cases h : (normalizeNPIs pg.npi).length = 0
  · simp [pgRows, h]
  · simp only [pgRows, h, if_false, List.length_flatMap, Function.comp_def,
      List.length_map]
    exact sum_map_const_len prices _

/-- Terms with value zero drop out of a sum. -/
theorem sum_map_filter_ne_zero {α : Type} (f : α → Nat) (l : List α) :
    (l.map f).sum = ((l.filter fun a => f a != 0).map f).sum := by
  induction l with
  | nil => simp
  | cons a tl ih =>
    by_cases h : f a = 0
    · simp [List.filter_cons, h, ih]
    · simp [List.filter_cons, h, ih]

/-! ## Lemmas about the fan-out sink -/

/-- Value of `getWriter` at its own code. -/
theorem getWriter_at (m : Writers) (code : String) :
    getWriter m code code = some ((m code).getD [csvHeader]) := by
  unfold getWriter
  cases h : m code <;> simp [h]

/-- `getWriter` changes no other code. -/
theorem getWriter_ne (m : Writers) (code c : String) (h : ¬(c = code)) :
    getWriter m code c = m c := by
  unfold getWriter
  cases h2 : m code <;> simp [h, h2]

/-- Value of `writeRow` at its own code. -/
theorem writeRow_at (m : Writers) (code : String) (row : List String) :
    writeRow m code row code = some ((m code).getD [csvHeader] ++ [row]) := by
  unfold writeRow
  simp [getWriter_at]

/-- `writeRow` changes no other code. -/
theorem writeRow_ne (m : Writers) (code c : String) (row : List String)
    (h : ¬(c = code)) :
    writeRow m code row c = m c := by
  unfold writeRow
  simp [h, getWriter_ne m code c h]

/-- Once a file exists, later operations only append its own rows. -/
theorem runSinkFrom_some (ops : List SinkOp) :
    ∀ (m : Writers) (code : String) (f : List (List String)),
      m code = some f →
      runSinkFrom m ops code = some (f ++ rowsFor code ops) := by
  induction ops with
  | nil => intro m code f h; simpa [runSinkFrom, rowsFor] using h
  | cons op tl ih =>
    intro m code f h
    have hstep : runSinkFrom m (op :: tl) = runSinkFrom (sinkStep m op) tl := rfl
    cases op with
    | openW c =>
      by_cases hc : c = code
      · subst hc
        have h2 : getWriter m c c = some f := by rw [getWriter_at, h]; rfl
        rw [hstep]
        simpa [rowsFor, List.filterMap_cons] using ih (getWriter m c) c f h2
      · have h2 : getWriter m c code = some f := by
          rw [getWriter_ne m c code (fun he => hc he.symm)]; exact h
        rw [hstep]
        simpa [rowsFor, List.filterMap_cons] using ih (getWriter m c) code f h2
    | write c r =>
      by_cases hc : c = code
      · subst hc
        have h2 : writeRow m c r c = some (f ++ [r]) := by
          rw [writeRow_at, h]; rfl
        rw [hstep]
        have := ih (writeRow m c r) c (f ++ [r]) h2
        simpa [rowsFor, List.filterMap_cons, List.append_assoc] using this
      · have h2 : writeRow m c r code = some f := by
          rw [writeRow_ne m c code r (fun he => hc he.symm)]; exact h
        rw [hstep]
        simpa [rowsFor, List.filterMap_cons, hc] using ih (writeRow m c r) code f h2

/-- A bare open adds no rows for any code. -/
theorem rowsFor_openW (code c : String) (tl : List SinkOp) :
    rowsFor code (SinkOp.openW c :: tl) = rowsFor code tl := by
  simp [rowsFor]

/-- A write for the same code prepends its row. -/
theorem rowsFor_write_eq (c : String) (r : List String) (tl : List SinkOp) :
    rowsFor c (SinkOp.write c r :: tl) = r :: rowsFor c tl := by
  simp [rowsFor]

/-- A write for another code adds no rows. -/
theorem rowsFor_write_ne (code c : String) (r : List String) (tl : List SinkOp)
    (h : ¬(c = code)) :
    rowsFor code (SinkOp.write c r :: tl) = rowsFor code tl := by
  simp [rowsFor, h]

/-- An open for the code touches it. -/
theorem touchesCode_openW_eq (c : String) (tl : List SinkOp) :
    touchesCode c (SinkOp.openW c :: tl) = true := by
  simp [touchesCode]

/-- An open for another code changes nothing. -/
theorem touchesCode_openW_ne (code c : String) (tl : List SinkOp)
    (h : ¬(c = code)) :
    touchesCode code (SinkOp.openW c :: tl) = touchesCode code tl := by
  simp [touchesCode, h]

/-- A write for the code touches it. -/
theorem touchesCode_write_eq (c : String) (r : List String) (tl : List SinkOp) :
    touchesCode c (SinkOp.write c r :: tl) = true := by
  simp [touchesCode]

/-- A write for another code changes nothing. -/
theorem touchesCode_write_ne (code c : String) (r : List String)
    (tl : List SinkOp) (h : ¬(c = code)) :
    touchesCode code (SinkOp.write c r :: tl) = touchesCode code tl := by
  simp [touchesCode, h]

/-- From a code with no file yet: the file exists afterwards exactly when
some operation names the code, and then it is the header followed by the
rows written for that code, in order. -/
theorem runSinkFrom_none (ops : List SinkOp) :
    ∀ (m : Writers) (code : String),
      m code = none →
      runSinkFrom m ops code =
        if touchesCode code ops then some (csvHeader :: rowsFor code ops)
        else none := by
  induction ops with
  | nil => intro m code h; simpa [runSinkFrom, rowsFor, touchesCode] using h
  | cons op tl ih =>
    intro m code h
    have hstep : runSinkFrom m (op :: tl) = runSinkFrom (sinkStep m op) tl := rfl
    cases op with
    | openW c =>
      by_cases hc : c = code
      · subst hc
        have h2 : getWriter m c c = some [csvHeader] := by
          rw [getWriter_at, h]; rfl
        rw [hstep]
        simp only [sinkStep]
        rw [runSinkFrom_some tl (getWriter m c) c [csvHeader] h2]
        rw [touchesCode_openW_eq c tl, rowsFor_openW c c tl]
        simp
      · have h2 : getWriter m c code = none := by
          rw [getWriter_ne m c code (fun he => hc he.symm)]; exact h
        rw [hstep]
        simp only [sinkStep]
        rw [ih (getWriter m c) code h2]
        rw [touchesCode_openW_ne code c tl hc, rowsFor_openW code c tl]
    | write c r =>
      by_cases hc : c = code
      · subst hc
        have h2 : writeRow m c r c = some [csvHeader, r] := by
          rw [writeRow_at, h]; rfl
        rw [hstep]
        simp only [sinkStep]
        rw [runSinkFrom_some tl (writeRow m c r) c [csvHeader, r] h2]
        rw [touchesCode_write_eq c r tl, rowsFor_write_eq c r tl]
        simp
      · have h2 : writeRow m c r code = none := by
          rw [writeRow_ne m c code r (fun he => hc he.symm)]; exact h
        rw [hstep]
        simp only [sinkStep]
        rw [ih (writeRow m c r) code h2]
        rw [touchesCode_write_ne code c r tl hc,
          rowsFor_write_ne code c r tl hc]

/-! ## Claim theorems -/

/-- C2: an array element produces output rows only if its
billing-code-type, trimmed and upper-cased, starts with `"CPT"` and its
trimmed billing-code is non-empty and in the allow-set; a rejected
element contributes zero rows, zero unresolved-reference records, and
increments only the scanned counter. -/
theorem filter_rejected_no_output (allowed : List String) (it : Item)
    (h : ¬(goHasPrefixStr (goToUpper (goTrimSpace it.billingCodeType)) "CPT" = true ∧
           ¬(goTrimSpace it.billingCode = "") ∧
           goTrimSpace it.billingCode ∈ allowed)) :
    keepItem allowed it = false ∧
    (processItem allowed it).rows = [] ∧
    (processItem allowed it).unres = [] ∧
    itemCounters allowed it =
      { seen := 1, kept := 0, rows := 0, refRates := 0, refIds := 0 } := by
  have hk : keepItem allowed it = false := by
    unfold keepItem
    by_cases h1 : goHasPrefixStr (goToUpper (goTrimSpace it.billingCodeType)) "CPT" = true
    · by_cases h2 : goTrimSpace it.billingCode = ""
      · simp [h1, h2]
      · have h3 : ¬(goTrimSpace it.billingCode ∈ allowed) := by
          intro h3; exact h ⟨h1, h2, h3⟩
        simp [h1, h2, h3]
    · simp [Bool.not_eq_true] at h1
      simp [h1]
  exact ⟨hk, by simp [processItem, hk], by simp [processItem, hk],
    by simp [itemCounters, hk]⟩

/-- A rejected item with references, for the C2 witness. -/
def itC2 : Item :=
  { billingCodeType := "HCPCS"
    billingCode := "27130"
    negotiationArrangement := JAny.jnull
    negotiatedRates :=
      [{ providerGroups := []
         providerReferences := ["11", "12"]
         negotiatedPrices := [] }] }

/-- C2 witness: a concrete rejected item yields no rows, no unresolved
records, and only the scanned counter. -/
theorem filter_rejected_no_output_witness :
    (processItem ["27130"] itC2).rows = [] ∧
    (processItem ["27130"] itC2).unres = [] ∧
    itemCounters ["27130"] itC2 =
      { seen := 1, kept := 0, rows := 0, refRates := 0, refIds := 0 } := by
  have h := filter_rejected_no_output ["27130"] itC2 (by decide)
  exact ⟨h.2.1, h.2.2.1, h.2.2.2⟩

/-- C1: for a kept item, a rate group with at least one provider group
and at least one price emits exactly `prices × Σ npis` rows, where the
sum ranges over the normalized NPI counts of its provider groups (groups
with an empty normalized NPI sequence contribute zero and drop out of the
sum); the rows the item emits are exactly the concatenation of its rate
groups' rows under its code. -/
theorem rate_group_row_count (allowed : List String) (it : Item) (rate : Rate)
    (hk : keepItem allowed it = true)
    (hmem : rate ∈ it.negotiatedRates)
    (h1 : 0 < rate.providerGroups.length)
    (h2 : 0 < rate.negotiatedPrices.length) :
    (rateRows (goTrimSpace it.billingCode)
        (goToUpper (goTrimSpace it.billingCodeType))
        (anyToString it.negotiationArrangement) rate).length =
      rate.negotiatedPrices.length *
        ((rate.providerGroups.map fun pg => (normalizeNPIs pg.npi).length).sum) ∧
    (rate.providerGroups.map fun pg => (normalizeNPIs pg.npi).length).sum =
      (((rate.providerGroups.filter fun pg =>
          (normalizeNPIs pg.npi).length != 0).map fun pg =>
          (normalizeNPIs pg.npi).length).sum) ∧
    (processItem allowed it).rows =
      it.negotiatedRates.flatMap fun r =>
        (rateRows (goTrimSpace it.billingCode)
          (goToUpper (goTrimSpace it.billingCodeType))
          (anyToString it.negotiationArrangement) r).map
          fun row => (goTrimSpace it.billingCode, row) := by
  refine ⟨?_, sum_map_filter_ne_zero _ _, by simp [processItem, hk]⟩
  have hg : rate.providerGroups.length ≠ 0 := Nat.pos_iff_ne_zero.mp h1
  have hp : rate.negotiatedPrices.length ≠ 0 := Nat.pos_iff_ne_zero.mp h2
  rw [rateRows, if_neg (by simp [hg, hp])]
  rw [List.length_flatMap]
  simp only [Function.comp_def, pgRows_length]
  exact sum_map_mul_left_len _ _ _

/-- A price used by the C1 witness. -/
def prC1 : Price :=
  { negotiatedRate := JAny.jnum "199.99"
    expirationDate := "9999-12-31"
    serviceCode := some ["21", "22"]
    billingCodeModifier := none
    negotiatedType := "negotiated"
    billingClass := "institutional" }

/-- A rate group with two provider groups (one and two NPIs) and two
prices, for the C1 witness. -/
def rateC1 : Rate :=
  { providerGroups :=
      [{ tin := some { ttype := "ein", tvalue := "12-3456789" }
         npi := JAny.jarr [JAny.jnum "1111111111"] },
       { tin := none
         npi := JAny.jarr [JAny.jstr "222", JAny.jstr "333"] }]
    providerReferences := []
    negotiatedPrices := [prC1, prC1] }

/-- A kept item holding `rateC1`, for the C1 witness. -/
def itC1 : Item :=
  { billingCodeType := " cpt4 "
    billingCode := "27130"
    negotiationArrangement := JAny.jstr "ffs"
    negotiatedRates := [rateC1] }

/-- C1 witness: 2 prices and 1 + 2 NPIs give 6 rows. -/
theorem rate_group_row_count_witness :
    (rateRows (goTrimSpace itC1.billingCode)
        (goToUpper (goTrimSpace itC1.billingCodeType))
        (anyToString itC1.negotiationArrangement) rateC1).length = 6 := by
  have h := rate_group_row_count ["27130"] itC1 rateC1 (by decide)
    (by simp [itC1]) (by decide) (by decide)
  exact h.1.trans (by decide)

/-- C3: a rate group contributes exactly one unresolved-reference record
per provider reference; the count depends only on the reference list, not
on the provider groups or prices; and a kept item emits exactly the
concatenation of its rate groups' unresolved records. -/
theorem unresolved_refs_exact (bc : String) (rate : Rate) :
    (rateUnres bc rate).length = rate.providerReferences.length ∧
    (∀ (pgs : List ProviderGroup) (ps : List Price),
      rateUnres bc
        { rate with providerGroups := pgs, negotiatedPrices := ps } =
        rateUnres bc rate) ∧
    (∀ (allowed : List String) (it : Item), keepItem allowed it = true →
      (processItem allowed it).unres =
        it.negotiatedRates.flatMap fun r =>
          rateUnres (goTrimSpace it.billingCode) r) := by
  refine ⟨by simp [rateUnres], fun pgs ps => rfl,
    fun allowed it hk => by simp [processItem, hk]⟩

/-- A rate group with three references and no groups or prices, for the
C3 witness. -/
def rateC3 : Rate :=
  { providerGroups := []
    providerReferences := ["1001", "1002", "1003"]
    negotiatedPrices := [] }

/-- A kept item holding `rateC3`, for the C3 witness. -/
def itC3 : Item :=
  { billingCodeType := "CPT"
    billingCode := "27130"
    negotiationArrangement := JAny.jnull
    negotiatedRates := [rateC3] }

/-- C3 witness: three references yield three records and no rows even
though the rate group yields no output rows. -/
theorem unresolved_refs_exact_witness :
    (rateUnres "27130" rateC3).length = 3 ∧
    (processItem ["27130"] itC3).unres =
      [["27130", "ref_id"], ["27130", "ref_id"], ["27130", "ref_id"]] ∧
    (processItem ["27130"] itC3).rows = [] := by
  have h := unresolved_refs_exact "27130" rateC3
  refine ⟨h.1.trans (by decide), ?_, by decide⟩
  have h3 := h.2.2 ["27130"] itC3 (by decide)
  exact h3.trans (by decide)

/-- C8: `normalizeNPIs` coerces each element of an NPI array individually
through `anyToString`, so null elements become empty strings but still
count; a provider group whose NPI array holds only nulls therefore has a
non-empty normalized sequence and emits rows whose NPI cell is the empty
string. -/
theorem null_npis_counted (bc bct na : String) (tin : Option TinInfo)
    (ps : List Price) (k : Nat) (hk : 0 < k) (hp : 0 < ps.length) :
    (∀ xs : List JAny, normalizeNPIs (JAny.jarr xs) = xs.map anyToString) ∧
    normalizeNPIs (JAny.jarr (List.replicate k JAny.jnull)) =
      List.replicate k "" ∧
    (pgRows bc bct na ps
        { tin := tin, npi := JAny.jarr (List.replicate k JAny.jnull) }).length =
      ps.length * k ∧
    ∀ row ∈ pgRows bc bct na ps
        { tin := tin, npi := JAny.jarr (List.replicate k JAny.jnull) },
      row.head? = some "" := by
  have hnorm : normalizeNPIs (JAny.jarr (List.replicate k JAny.jnull)) =
      List.replicate k "" := by
    simp [normalizeNPIs, List.map_replicate, anyToString]
  have hlen : (normalizeNPIs (JAny.jarr (List.replicate k JAny.jnull))).length = k := by
    simp [hnorm]
  refine ⟨fun xs => rfl, hnorm, ?_, ?_⟩
  · rw [pgRows_length, hlen]
  · intro row hrow
    have hnz : ¬((normalizeNPIs (JAny.jarr (List.replicate k JAny.jnull))).length = 0) := by
      rw [hlen]; omega
    simp only [pgRows, hnz, if_false, List.mem_flatMap, List.mem_map] at hrow
    obtain ⟨p, hp2, npi, hnpi, rfl⟩ := hrow
    have hempty : npi = "" := by
      rw [hnorm] at hnpi
      exact List.eq_of_mem_replicate hnpi
    simp [priceRow, hempty]

/-- A price used by the C8 witness. -/
def prC8 : Price :=
  { negotiatedRate := JAny.jnum "12.5"
    expirationDate := "2026-12-31"
    serviceCode := none
    billingCodeModifier := none
    negotiatedType := "fee schedule"
    billingClass := "professional" }

/-- C8 witness: an NPI array of two nulls normalizes to two empty strings
and, with one price, yields two rows. -/
theorem null_npis_counted_witness :
    normalizeNPIs (JAny.jarr (List.replicate 2 JAny.jnull)) =
      List.replicate 2 "" ∧
    (pgRows "27130" "CPT" "" [prC8]
        { tin := none, npi := JAny.jarr (List.replicate 2 JAny.jnull) }).length =
      [prC8].length * 2 := by
  have h := null_npis_counted "27130" "CPT" "" none [prC8] 2
    (by decide) (by decide)
  exact ⟨h.2.1, h.2.2.1⟩

/-- Cells of a row other than the two TIN cells. -/
def eraseTinCells (row : List String) : List String :=
  row.take 1 ++ row.drop 3

/-- C10: a provider group whose TIN field is null emits rows whose
`tin_type` and `tin_value` cells are empty, and every other cell agrees
with what the same group would emit with any present TIN. -/
theorem tin_null_empty_cells (bc bct na : String) (prices : List Price)
    (npi : JAny) (t : TinInfo) :
    (∀ row ∈ pgRows bc bct na prices { tin := none, npi := npi },
        row[1]? = some "" ∧ row[2]? = some "") ∧
    (pgRows bc bct na prices { tin := none, npi := npi }).map eraseTinCells =
      (pgRows bc bct na prices { tin := some t, npi := npi }).map eraseTinCells ∧
    (pgRows bc bct na prices { tin := none, npi := npi }).length =
      (pgRows bc bct na prices { tin := some t, npi := npi }).length := by
  refine ⟨?_, ?_, ?_⟩
  · intro row hrow
    by_cases h : (normalizeNPIs npi).length = 0
    · simp [pgRows, h] at hrow
    · simp only [pgRows, h, if_false, List.mem_flatMap, List.mem_map] at hrow
      obtain ⟨p, hp, x, hx, rfl⟩ := hrow
      simp [priceRow]
  · by_cases h : (normalizeNPIs npi).length = 0
    · simp [pgRows, h]
    · simp [pgRows, h, List.map_flatMap, List.map_map, Function.comp_def,
        eraseTinCells, priceRow]
  · simp [pgRows_length]

/-- A price used by the C10 witness. -/
def prC10 : Price :=
  { negotiatedRate := JAny.jnum "55"
    expirationDate := "2027-01-01"
    serviceCode := some ["11"]
    billingCodeModifier := some ["LT"]
    negotiatedType := "negotiated"
    billingClass := "professional" }

/-- C10 witness: with a null TIN the non-TIN cells match those emitted
with a present TIN. -/
theorem tin_null_empty_cells_witness :
    (pgRows "27130" "CPT" "" [prC10]
        { tin := none, npi := JAny.jarr [JAny.jstr "111"] }).map eraseTinCells =
      (pgRows "27130" "CPT" "" [prC10]
        { tin := some { ttype := "ein", tvalue := "9" },
          npi := JAny.jarr [JAny.jstr "111"] }).map eraseTinCells :=
  (tin_null_empty_cells "27130" "CPT" "" [prC10] (JAny.jarr [JAny.jstr "111"])
    { ttype := "ein", tvalue := "9" }).2.1

/-- C6: for any sequence of sink operations, a per-code file that exists
is exactly the fixed header followed by the rows written for that code in
order — the header is written once on creation, the handle is cached, and
later calls only append; in particular, when no data row equals the
header, the file contains the header exactly once. -/
theorem header_written_once (ops : List SinkOp) (code : String)
    (f : List (List String)) (h : runSink ops code = some f) :
    f = csvHeader :: rowsFor code ops ∧
    (csvHeader ∉ rowsFor code ops → f.count csvHeader = 1) := by
  have h2 := runSinkFrom_none ops noWriters code rfl
  rw [runSink, h2] at h
  by_cases ht : touchesCode code ops
  · rw [if_pos ht] at h
    have hf : f = csvHeader :: rowsFor code ops := by
      injection h with h3
      exact h3.symm
    refine ⟨hf, fun hnot => ?_⟩
    rw [hf]
    simp [List.count_cons, List.count_eq_zero_of_not_mem hnot]
  · rw [if_neg ht] at h
    exact absurd h (by simp)

/-- Sink operations for the C6 witness: two codes, interleaved writes. -/
def opsC6 : List SinkOp :=
  [SinkOp.openW "27130", SinkOp.write "27130" ["r1"],
   SinkOp.write "23472" ["r2"], SinkOp.write "27130" ["r3"]]

/-- C6 witness: the file for a code written three times holds the header
once, at the top, followed by its own rows in order. -/
theorem header_written_once_witness :
    [csvHeader, ["r1"], ["r3"]] = csvHeader :: rowsFor "27130" opsC6 ∧
    [csvHeader, ["r1"], ["r3"]].count csvHeader = 1 := by
  have h : runSink opsC6 "27130" = some [csvHeader, ["r1"], ["r3"]] := by decide
  have h2 := header_written_once opsC6 "27130" [csvHeader, ["r1"], ["r3"]] h
  exact ⟨h2.1, h2.2 (by decide)⟩

/-- C7 counterexample: a `json.Number` may hold a literal with an
exponent (the decoder keeps the token text), and `anyToString` returns
that text verbatim, so the canonical text can be in scientific form. -/
theorem number_passthrough_exponential :
    isNumberLit "1e3" = true ∧
    anyToString (JAny.jnum "1e3") = "1e3" ∧
    hasExpMark (anyToString (JAny.jnum "1e3")) = true := by
  refine ⟨by decide, rfl, by decide⟩

/-- C7 (amended): `anyToString` returns a `json.Number` literal verbatim,
so its output carries an exponent marker exactly when the decoded literal
does; exponent-free literals never gain scientific form.  (The `float64`
branch of the source formats with the fixed-point `%.10f` and is
unreachable under `UseNumber`.) -/
theorem number_text_verbatim (s : String) :
    anyToString (JAny.jnum s) = s ∧
    hasExpMark (anyToString (JAny.jnum s)) = hasExpMark s :=
  ⟨rfl, rfl⟩

/-- A kept item emitting one row, decoded before a failing element in the
C5 counterexample run. -/
def itC5 : Item :=
  { billingCodeType := "CPT"
    billingCode := "27130"
    negotiationArrangement := JAny.jnull
    negotiatedRates :=
      [{ providerGroups := [{ tin := none, npi := JAny.jarr [JAny.jstr "1"] }]
         providerReferences := []
         negotiatedPrices :=
           [{ negotiatedRate := JAny.jnum "10"
              expirationDate := "2026-01-01"
              serviceCode := none
              billingCodeModifier := none
              negotiatedType := "negotiated"
              billingClass := "institutional" }] }] }

/-- C5 counterexample: on a run that panics after a per-code writer has
been opened, that writer is not flushed or closed before the process
terminates, so the claimed guarantee fails on the fatal path. -/
theorem flush_on_panic_counterexample :
    ¬(∀ (allowed : List String) (input : List DecodeResult) (c : String),
        c ∈ (runProgram allowed input).opened →
        c ∈ (runProgram allowed input).flushedClosed) := by
  intro hall
  have h := hall ["27130"] [DecodeResult.ok itC5, DecodeResult.failure]
    "27130" (by decide)
  revert h
  decide

/-- C5 (amended): the unresolved-references writer is flushed and closed
on every termination path (the deferred function), while the per-code
writers are flushed and closed exactly on natural completion — on a panic
none of them is. -/
theorem flush_paths_amended (allowed : List String)
    (input : List DecodeResult) :
    (runProgram allowed input).unresFlushedClosed = true ∧
    (runProgram allowed input).flushedClosed =
      (if (runProgram allowed input).panicked then []
       else (runProgram allowed input).opened) := by
  rcases h : openedCodes allowed input [] with ⟨op, pan⟩
  cases pan <;> simp [runProgram, h]

/-- C4: started at the first token of any syntactically valid JSON value,
the token skipper consumes exactly that value — one token for a
primitive, or the opening delimiter through the matching closing
delimiter — and leaves the stream positioned at the next sibling token;
its depth counter stays positive throughout the loop and returns to zero
exactly once, on the final (closing) token. -/
theorem skipValue_consumes_exactly (v : JVal) (rest : List Tok) :
    skipValue (toks v ++ rest) = some rest ∧
    ∃ ds : List Nat, skipValueT (toks v ++ rest) = some (ds, rest) ∧
      ds.length + 1 = (toks v).length ∧
      (∀ x ∈ ds.dropLast, 0 < x) ∧ (ds ≠ [] → ds.getLast? = some 0) :=
  ⟨skipValue_complete v rest, skipValueT_val v rest⟩

/-- A nested value for the C4 witness: an object holding an array. -/
def valC4 : JVal :=
  JVal.obj (JFields.fcons "a"
    (JVal.arr (JList.cons JVal.scalar (JList.cons (JVal.vstr "x") JList.nil)))
    JFields.fnil)

/-- C4 witness: skipping the nested object lands exactly on the next
sibling token. -/
theorem skipValue_consumes_exactly_witness :
    skipValue (toks valC4 ++ [Tok.tscalar]) = some [Tok.tscalar] :=
  (skipValue_consumes_exactly valC4 [Tok.tscalar]).1

/-- C9: the root scan skips every field before the first `"in_network"`
key, enters its array, consumes the elements and the closing bracket, and
never reads the remaining root fields — so a later duplicate
`"in_network"` key or any field after the target array is never
examined. -/
theorem root_scan_stops_at_target (pre post : JFields) (elems : JList)
    (rest : List Tok) (hpre : hasKeyF pre "in_network" = false) :
    rootPhase (numF pre + 1) (lenL elems)
      (toks (JVal.obj (appendF pre
        (JFields.fcons "in_network" (JVal.arr elems) post))) ++ rest) =
      some (toksF post ++ Tok.objClose :: rest) := by
  have h1 := scanKeys_pre pre
    (toksL elems ++ Tok.arrClose :: (toksF post ++ Tok.objClose :: rest)) hpre
  have h2 := consumeElems_elems elems (toksF post ++ Tok.objClose :: rest)
  simp only [rootPhase, toks, toksF_append, toksF, rootScan,
    List.cons_append, List.append_assoc, List.nil_append, h1, h2]

/-- The fields before the target key in the C9 witness. -/
def preC9 : JFields :=
  JFields.fcons "reporting_entity" (JVal.vstr "BCBS") JFields.fnil

/-- The fields after the target array in the C9 witness — including a
duplicate `"in_network"` key, which is never examined. -/
def postC9 : JFields :=
  JFields.fcons "in_network" (JVal.vstr "duplicate") JFields.fnil

/-- The target array elements in the C9 witness. -/
def elemsC9 : JList := JList.cons JVal.scalar JList.nil

/-- C9 witness: with one leading field and a trailing duplicate key, the
pipeline stops right after the closing bracket, leaving the duplicate
unread. -/
theorem root_scan_stops_at_target_witness :
    rootPhase (numF preC9 + 1) (lenL elemsC9)
      (toks (JVal.obj (appendF preC9
        (JFields.fcons "in_network" (JVal.arr elemsC9) postC9))) ++ []) =
      some (toksF postC9 ++ Tok.objClose :: []) :=
  root_scan_stops_at_target preC9 postC9 elemsC9 [] (by decide)
